import Mathlib

/-!
The client manager of the chat-app, `main.go`.

A shallow embedding of `src/main.go`: the `Message` record and its JSON
encoding, the `ClientManager` control loop (`start`, `send`) and the inbound
loop `Client.read`.

Modelling conventions.

* A `*Client` pointer is a natural number (`ClientPtr`); a `[]byte` payload and
  a Go `string` are a Lean `String` (valid UTF-8 only).
* `manager.clients` is a `map[*Client]bool` whose values are always `true`; it
  is the list of its keys, in the order a `range` loop yields them.  Go leaves
  that order unspecified, so statements quantify over every list, and the
  event loop `ClientManager.start` lets every pass pick a fresh order.
* `conn.send` is the unbuffered channel `make(chan []byte)` of `wsPage`.  A
  send can proceed at once exactly when the receiver (`Client.write`) is parked
  on the channel.  One event makes one pass over the map and attempts at most
  one send per client, so the environment of one event is a function
  `ready : ClientPtr → Bool`.
* A goroutine that executes a blocking send nobody is ready to receive is
  suspended (`Outcome.blocked`, carrying the state at the suspension point);
  a send on a closed channel and a close of a closed channel are run-time
  panics (`Outcome.panicked`).
* `manager.broadcast`, `manager.register` and `manager.unregister` are
  unbuffered too.  The control loop is the event it receives (`Event`); for
  the sender `Client.read`, a send goes through when the control loop receives
  it, so its environment is the number of its sends the control loop receives.
-/

namespace ChatApp

/-- Identity of a `*Client`. -/
abbrev ClientPtr := Nat

/-- A `[]byte` payload. -/
abbrev Payload := String

/-! ## `Message` and `json.Marshal` -/

/-- The struct `Message` of main.go, lines 27-31; every field is tagged `omitempty`. -/
structure Message where
  Sender : String := ""
  Recipient : String := ""
  Content : String := ""
deriving DecidableEq, Repr

/-- Lower-case hexadecimal digit, the table `hex` of encoding/json. -/
def hexDigit (n : Nat) : Char :=
  if n < 10 then Char.ofNat (48 + n) else Char.ofNat (87 + n)

/-- Escaping of one character inside a JSON string, as `json.Marshal` does it
(HTML escaping on): the quote and the backslash get a backslash, the control
characters with a short form use it, the other characters below 0x20 and
`<`, `>`, `&`, U+2028, U+2029 are written `\u` followed by four hex digits. -/
def escapeChar (c : Char) : List Char :=
  let n := c.toNat
  if n = 34 ∨ n = 92 then [Char.ofNat 92, c]
  else if n = 8 then [Char.ofNat 92, Char.ofNat 98]
  else if n = 12 then [Char.ofNat 92, Char.ofNat 102]
  else if n = 10 then [Char.ofNat 92, Char.ofNat 110]
  else if n = 13 then [Char.ofNat 92, Char.ofNat 114]
  else if n = 9 then [Char.ofNat 92, Char.ofNat 116]
  else if n < 32 ∨ n = 60 ∨ n = 62 ∨ n = 38 then
    [Char.ofNat 92, Char.ofNat 117, Char.ofNat 48, Char.ofNat 48, hexDigit (n / 16), hexDigit (n % 16)]
  else if n = 8232 ∨ n = 8233 then
    [Char.ofNat 92, Char.ofNat 117, Char.ofNat 50, Char.ofNat 48, Char.ofNat 50, hexDigit (n % 16)]
  else [c]

/-- A JSON string literal: the escaped characters between two quotes. -/
def quoteJSON (s : String) : List Char :=
  Char.ofNat 34 :: ((s.data.map escapeChar).flatten ++ [Char.ofNat 34])

/-- The members `json.Marshal` emits for a `Message`: the fields in declaration
order under their tag names, a field tagged `omitempty` being left out when it
is the empty string. -/
def Message.members (m : Message) : List (String × String) :=
  (if m.Sender = "" then [] else [("sender", m.Sender)]) ++
  (if m.Recipient = "" then [] else [("recipient", m.Recipient)]) ++
  (if m.Content = "" then [] else [("content", m.Content)])

/-- One member: `"key":"value"`. -/
def renderMember (kv : String × String) : List Char :=
  quoteJSON kv.1 ++ Char.ofNat 58 :: quoteJSON kv.2

/-- Members separated by commas. -/
def renderMembers : List (String × String) → List Char
  | [] => []
  | [kv] => renderMember kv
  | kv :: rest => renderMember kv ++ Char.ofNat 44 :: renderMembers rest

/-- The call `json.Marshal(&Message{...})`: the JSON object of the members.
It cannot fail on a struct of strings, which is why main.go drops the error. -/
def jsonMarshal (m : Message) : Payload :=
  String.mk (Char.ofNat 123 :: (renderMembers m.members ++ [Char.ofNat 125]))

/-! ## Reading an encoded record

main.go only encodes.  To say which fields an encoded payload has, the payload
is read back with the JSON grammar (RFC 8259) for an object whose members are
strings, written without insignificant whitespace: the `decode` of the
specification, at the level of the members of the record. -/

/-- Value of a hexadecimal digit. -/
def hexVal (c : Char) : Option Nat :=
  let n := c.toNat
  if 48 ≤ n ∧ n ≤ 57 then some (n - 48)
  else if 97 ≤ n ∧ n ≤ 102 then some (n - 87)
  else if 65 ≤ n ∧ n ≤ 70 then some (n - 55)
  else none

/-- The character a two-character escape stands for: the quote, the backslash
and the slash stand for themselves, then `b`, `f`, `n`, `r`, `t`. -/
def unescapeShort (e : Char) : Option Char :=
  let n := e.toNat
  if n = 34 ∨ n = 92 ∨ n = 47 then some e
  else if n = 98 then some (Char.ofNat 8)
  else if n = 102 then some (Char.ofNat 12)
  else if n = 110 then some (Char.ofNat 10)
  else if n = 114 then some (Char.ofNat 13)
  else if n = 116 then some (Char.ofNat 9)
  else none

/-- The character of a `\u` escape with the four hexadecimal digits given. -/
def hex4 (a b c d : Char) : Option Char :=
  match hexVal a, hexVal b, hexVal c, hexVal d with
  | some x, some y, some z, some w => some (Char.ofNat (((x * 16 + y) * 16 + z) * 16 + w))
  | _, _, _, _ => none

/-- Put a decoded character in front of the rest of a decoded string. -/
def pushChar (c : Option Char) (r : Option (List Char × List Char)) :
    Option (List Char × List Char) :=
  match c, r with
  | some c, some (s, rest) => some (c :: s, rest)
  | _, _ => none

/-- Read a JSON string from just after its opening quote: the characters it
denotes and the input that follows its closing quote.  A raw control character,
an unknown escape or a missing closing quote is an error. -/
def readString : List Char → Option (List Char × List Char)
  | [] => none
  | c :: rest =>
    if c.toNat = 34 then some ([], rest)
    else if c.toNat = 92 then
      match rest with
      | [] => none
      | e :: rest1 =>
        if e.toNat = 117 then
          match rest1 with
          | h1 :: h2 :: h3 :: h4 :: rest2 => pushChar (hex4 h1 h2 h3 h4) (readString rest2)
          | _ => none
        else pushChar (unescapeShort e) (readString rest1)
    else if c.toNat < 32 then none
    else pushChar (some c) (readString rest)

/-- Read one member `"key":"value"` and return it with the input that follows. -/
def readMember : List Char → Option ((String × String) × List Char)
  | [] => none
  | q :: rest =>
    if q.toNat = 34 then
      match readString rest with
      | some (k, colon :: q2 :: rest2) =>
        if colon.toNat = 58 ∧ q2.toNat = 34 then
          match readString rest2 with
          | some (v, rest3) => some ((String.mk k, String.mk v), rest3)
          | none => none
        else none
      | _ => none
    else none

/-- Read the members of a non-empty object up to its closing brace, which must
end the input; the first argument bounds the number of members. -/
def readMembers : Nat → List Char → Option (List (String × String))
  | 0, _ => none
  | fuel + 1, input =>
    match readMember input with
    | some (kv, c :: rest) =>
      if c.toNat = 125 then (if rest = [] then some [kv] else none)
      else if c.toNat = 44 then (readMembers fuel rest).map (fun kvs => kv :: kvs)
      else none
    | _ => none

/-- The members of an encoded record, in the order written; `none` when the
payload is not an object of string members. -/
def decodeRecord (bytes : Payload) : Option (List (String × String)) :=
  match bytes.data with
  | [] => none
  | o :: rest =>
    if o.toNat = 123 then
      if rest = [Char.ofNat 125] then some [] else readMembers rest.length rest
    else none

/-! ## Channels -/

/-- The channel `conn.send`: whether `close` was called on it, and the payloads
handed to its receiver so far, oldest first. -/
structure Chan where
  closed : Bool
  recvd : List Payload
deriving DecidableEq, Repr

/-- What a send attempt on a channel does. -/
inductive SendResult where
  | sent (ch : Chan)
  | notReady
  | closedPanic
deriving DecidableEq, Repr

/-- The send `ch <- v` attempted with the receiver ready or not.  A closed
channel makes the send proceed and panic, whoever is waiting. -/
def Chan.trySend (ch : Chan) (ready : Bool) (v : Payload) : SendResult :=
  if ch.closed then .closedPanic
  else if ready then .sent { ch with recvd := ch.recvd ++ [v] }
  else .notReady

/-- The call `close(ch)`; `none` is the panic on a closed channel. -/
def Chan.close (ch : Chan) : Option Chan :=
  if ch.closed then none else some { ch with closed := true }

/-- A channel as `make(chan []byte)` returns it. -/
def Chan.fresh : Chan := { closed := false, recvd := [] }

/-! ## `ClientManager` -/

/-- The state the control loop owns: the keys of `manager.clients` and the
`send` channel of every client. -/
structure ClientManager where
  clients : List ClientPtr
  chans : ClientPtr → Chan

/-- The three channels `start` selects on, as the event received. -/
inductive Event where
  | register (conn : ClientPtr)
  | unregister (conn : ClientPtr)
  | broadcast (message : Payload)
deriving DecidableEq, Repr

/-- How the processing of an event ends. -/
inductive Outcome where
  | done (m : ClientManager)
  | blocked (m : ClientManager)
  | panicked

/-- The manager state an outcome carries, if any. -/
def Outcome.state? : Outcome → Option ClientManager
  | .done m => some m
  | .blocked m => some m
  | .panicked => none

/-- The assignment `manager.clients[conn] = true`. -/
def ClientManager.insert (m : ClientManager) (conn : ClientPtr) : ClientManager :=
  if conn ∈ m.clients then m else { m with clients := m.clients ++ [conn] }

/-- The call `delete(manager.clients, conn)`. -/
def ClientManager.delete (m : ClientManager) (conn : ClientPtr) : ClientManager :=
  { m with clients := m.clients.filter (fun c => c ≠ conn) }

/-- Replace the channel of `conn`. -/
def ClientManager.setChan (m : ClientManager) (conn : ClientPtr) (ch : Chan) : ClientManager :=
  { m with chans := Function.update m.chans conn ch }

/-- The loop of `ClientManager.send` (lines 80-84) over the keys still to visit:
a blocking send to every client but `ignore`. -/
def sendLoop (message : Payload) (ignore : ClientPtr) (ready : ClientPtr → Bool) :
    List ClientPtr → ClientManager → Outcome
  | [], m => .done m
  | conn :: rest, m =>
    if conn ≠ ignore then
      match (m.chans conn).trySend (ready conn) message with
      | .sent ch => sendLoop message ignore ready rest (m.setChan conn ch)
      | .notReady => .blocked m
      | .closedPanic => .panicked
    else sendLoop message ignore ready rest m

/-- The method `ClientManager.send` of main.go, lines 79-85. -/
def ClientManager.send (m : ClientManager) (message : Payload) (ignore : ClientPtr)
    (ready : ClientPtr → Bool) : Outcome :=
  sendLoop message ignore ready m.clients m

/-- The loop of the broadcast case (lines 66-73) over the keys still to visit:
`select` with a send case and a `default` that closes the channel and deletes
the client.  The body deletes only the key it is visiting, so every key of the
map is visited once. -/
def broadcastLoop (message : Payload) (ready : ClientPtr → Bool) :
    List ClientPtr → ClientManager → Outcome
  | [], m => .done m
  | conn :: rest, m =>
    match (m.chans conn).trySend (ready conn) message with
    | .sent ch => broadcastLoop message ready rest (m.setChan conn ch)
    | .notReady =>
      match (m.chans conn).close with
      | some ch => broadcastLoop message ready rest ((m.setChan conn ch).delete conn)
      | none => .panicked
    | .closedPanic => .panicked

/-- The notice of line 52. -/
def joinNotice : Payload := jsonMarshal { Content := "/A new socket has connected." }

/-- The notice of line 60. -/
def leaveNotice : Payload := jsonMarshal { Content := "/A socket has disconnected." }

/-- One iteration of the `for`/`select` of `ClientManager.start` (lines 47-74),
for the event received. -/
def ClientManager.startEvent (m : ClientManager) (ev : Event) (ready : ClientPtr → Bool) : Outcome :=
  match ev with
  | .register conn => (m.insert conn).send joinNotice conn ready
  | .unregister conn =>
    if conn ∈ m.clients then
      match (m.chans conn).close with
      | some ch => ((m.setChan conn ch).delete conn).send leaveNotice conn ready
      | none => .panicked
    else .done m
  | .broadcast message => broadcastLoop message ready m.clients m

/-- One turn of the control loop as the environment sees it: the event, which
receivers are parked during its pass, and the order in which `range` yields the
keys during its pass. -/
structure Turn where
  ev : Event
  ready : ClientPtr → Bool
  order : List ClientPtr

/-- The keys of the map in the order this pass yields them: any permutation. -/
def ClientManager.rangeOrder (m : ClientManager) (order : List ClientPtr) : ClientManager :=
  if order.isPerm m.clients then { m with clients := order } else m

/-- The method `ClientManager.start` of main.go, lines 43-76, run on the events
it receives: one event at a time; a suspended or panicked goroutine processes
nothing more. -/
def ClientManager.start : ClientManager → List Turn → Outcome
  | m, [] => .done m
  | m, t :: rest =>
    match (m.rangeOrder t.order).startEvent t.ev t.ready with
    | .done m1 => ClientManager.start m1 rest
    | o => o

/-- The manager of lines 34-39: no client; every channel a client will bring is
the one `wsPage` makes for it. -/
def manager : ClientManager := { clients := [], chans := fun _ => Chan.fresh }

/-- The connection a turn registers, if it is a register event. -/
def Turn.joins (t : Turn) : Option ClientPtr :=
  match t.ev with
  | .register conn => some conn
  | _ => none

/-- The connections of the register events, in order. -/
def joined (turns : List Turn) : List ClientPtr :=
  turns.filterMap Turn.joins

/-- Every member has an open channel and is listed once. -/
def ClientManager.WF (m : ClientManager) : Prop :=
  m.clients.Nodup ∧ ∀ c ∈ m.clients, (m.chans c).closed = false

/-- A manager whose clients are `l`, each with the channel `wsPage` made for it
and nothing sent on it yet. -/
def roomOf (l : List ClientPtr) : ClientManager := { clients := l, chans := fun _ => Chan.fresh }

/-- A sample run: 1 joins, 2 joins, a broadcast that 1 cannot take, 1 leaves
twice (as `Client.read` submits it), 3 joins while 2 is busy. -/
def sampleTurns : List Turn :=
  [⟨.register 1, fun _ => true, []⟩, ⟨.register 2, fun _ => true, [1]⟩,
   ⟨.broadcast "m", fun c => decide (c = 2), [2, 1]⟩,
   ⟨.unregister 1, fun _ => true, [2]⟩, ⟨.unregister 1, fun _ => true, [2]⟩,
   ⟨.register 3, fun _ => false, [2]⟩]

/-! ## `Client.read` -/

/-- The fields of `Client` the inbound loop uses: the pointer and the id. -/
structure Client where
  ptr : ClientPtr
  id : String
deriving DecidableEq, Repr

/-- The result of one `c.socket.ReadMessage()`. -/
inductive ReadResult where
  | frame (message : String)
  | err
deriving DecidableEq, Repr

/-- What `Client.read` does to the outside, in order: a send is listed once
the control loop has received it. -/
inductive Emit where
  | unregister (c : ClientPtr)
  | broadcast (jsonMessage : Payload)
  | socketClose (c : ClientPtr)
deriving DecidableEq, Repr

/-- Where the `for` loop of `Client.read` stands. -/
inductive LoopStatus where
  | broke
  | inReadMessage
  | inSend
deriving DecidableEq, Repr

/-- Where the goroutine of `Client.read` stands. -/
inductive ReadStatus where
  | returned
  | inReadMessage
  | inSend
deriving DecidableEq, Repr

/-- The `for` loop of `Client.read` (lines 96-107) on the results the transport
gives.  `manager.broadcast` and `manager.unregister` are unbuffered (lines
36-38), so the sends of lines 100 and 106 go through only when the control loop
receives them: `taken` is the number of sends of this goroutine the control
loop still receives, and a send with none left suspends the goroutine.  The
result is what was emitted, where the loop stands, and how many sends the
control loop would still receive. -/
def readLoop (c : Client) : List ReadResult → Nat → List Emit × LoopStatus × Nat
  | [], taken => ([], .inReadMessage, taken)
  | .err :: _, 0 => ([], .inSend, 0)
  | .err :: _, taken + 1 => ([.unregister c.ptr, .socketClose c.ptr], .broke, taken)
  | .frame _ :: _, 0 => ([], .inSend, 0)
  | .frame message :: rest, taken + 1 =>
    let r := readLoop c rest taken
    (.broadcast (jsonMarshal { Sender := c.id, Content := message }) :: r.1, r.2)

/-- The method `Client.read` of main.go, lines 88-108: the loop, then, once the
loop is left, the deferred function of lines 90-93, whose send on
`manager.unregister` blocks like the others. -/
def Client.read (c : Client) (reads : List ReadResult) (taken : Nat) : List Emit × ReadStatus :=
  match readLoop c reads taken with
  | (es, .broke, 0) => (es, .inSend)
  | (es, .broke, _ + 1) => (es ++ [.unregister c.ptr, .socketClose c.ptr], .returned)
  | (es, .inReadMessage, _) => (es, .inReadMessage)
  | (es, .inSend, _) => (es, .inSend)

/-- Number of unregister events for `p` among the emitted events. -/
def unregisterCount (p : ClientPtr) (es : List Emit) : Nat :=
  es.count (.unregister p)

/-! # Theorems -/

/-! ## Elementary facts about the state operations -/

theorem setChan_clients (m : ClientManager) (conn : ClientPtr) (ch : Chan) :
    (m.setChan conn ch).clients = m.clients := rfl

theorem setChan_chans_same (m : ClientManager) (conn : ClientPtr) (ch : Chan) :
    (m.setChan conn ch).chans conn = ch := by
  simp [ClientManager.setChan]

theorem setChan_chans_other (m : ClientManager) (conn c : ClientPtr) (ch : Chan) (h : c ≠ conn) :
    (m.setChan conn ch).chans c = m.chans c := by
  simp [ClientManager.setChan, Function.update, h]

theorem delete_chans (m : ClientManager) (conn : ClientPtr) :
    (m.delete conn).chans = m.chans := rfl

theorem delete_clients (m : ClientManager) (conn : ClientPtr) :
    (m.delete conn).clients = m.clients.filter (fun c => c ≠ conn) := rfl

theorem trySend_open_ready (ch : Chan) (v : Payload) (h : ch.closed = false) :
    ch.trySend true v = .sent { ch with recvd := ch.recvd ++ [v] } := by
  simp [Chan.trySend, h]

theorem trySend_open_notReady (ch : Chan) (v : Payload) (h : ch.closed = false) :
    ch.trySend false v = .notReady := by
  simp [Chan.trySend, h]

theorem close_open (ch : Chan) (h : ch.closed = false) :
    ch.close = some { ch with closed := true } := by
  simp [Chan.close, h]

/-! ## The broadcast pass -/

/-- The broadcast loop over duplicate-free keys with open channels finishes;
the clients that are not ready are filtered out and closed, the ready ones get
the message appended, all others are untouched. -/
theorem broadcastLoop_spec (message : Payload) (ready : ClientPtr → Bool) :
    ∀ (l : List ClientPtr) (m : ClientManager), l.Nodup →
      (∀ c ∈ l, (m.chans c).closed = false) →
      ∃ m1, broadcastLoop message ready l m = .done m1 ∧
        m1.clients = m.clients.filter (fun c => decide (c ∉ l) || ready c) ∧
        (∀ c ∈ l, ready c = true →
          m1.chans c = { closed := false, recvd := (m.chans c).recvd ++ [message] }) ∧
        (∀ c ∈ l, ready c = false →
          m1.chans c = { closed := true, recvd := (m.chans c).recvd }) ∧
        (∀ c, c ∉ l → m1.chans c = m.chans c) := by
  intro l
  induction l with
  | nil =>
    intro m _ _
    exact ⟨m, rfl, by simp, by simp, by simp, fun _ _ => rfl⟩
  | cons conn rest ih =>
    intro m hnd hopen
    have hconn : (m.chans conn).closed = false := hopen conn (List.mem_cons_self _ _)
    have hnotin : conn ∉ rest := (List.nodup_cons.mp hnd).1
    have hnd1 : rest.Nodup := (List.nodup_cons.mp hnd).2
    have hne : ∀ c ∈ rest, c ≠ conn := fun c hc h => hnotin (h ▸ hc)
    cases hr : ready conn with
    | true =>
      let m0 := m.setChan conn { m.chans conn with recvd := (m.chans conn).recvd ++ [message] }
      have hopen0 : ∀ c ∈ rest, (m0.chans c).closed = false := by
        intro c hc
        rw [setChan_chans_other _ _ _ _ (hne c hc)]
        exact hopen c (List.mem_cons_of_mem _ hc)
      obtain ⟨m1, hrun, hcl, hrdy, hnrdy, hout⟩ := ih m0 hnd1 hopen0
      refine ⟨m1, ?_, ?_, ?_, ?_, ?_⟩
      · simp only [broadcastLoop, hr, trySend_open_ready _ _ hconn]
        exact hrun
      · rw [hcl, setChan_clients]
        apply List.filter_congr
        intro c _
        by_cases hcc : c = conn
        · subst hcc; simp [hr, hnotin]
        · simp [hcc]
      · intro c hc hrc
        rcases List.mem_cons.mp hc with h | h
        · subst h
          rw [hout c hnotin, setChan_chans_same]
          simp [hconn]
        · rw [hrdy c h hrc, setChan_chans_other _ _ _ _ (hne c h)]
      · intro c hc hrc
        rcases List.mem_cons.mp hc with h | h
        · subst h; rw [hr] at hrc; cases hrc
        · rw [hnrdy c h hrc, setChan_chans_other _ _ _ _ (hne c h)]
      · intro c hc
        have h1 : c ≠ conn := fun h => hc (h ▸ List.mem_cons_self _ _)
        have h2 : c ∉ rest := fun h => hc (List.mem_cons_of_mem _ h)
        rw [hout c h2, setChan_chans_other _ _ _ _ h1]
    | false =>
      let m0 := (m.setChan conn { m.chans conn with closed := true }).delete conn
      have hopen0 : ∀ c ∈ rest, (m0.chans c).closed = false := by
        intro c hc
        rw [delete_chans, setChan_chans_other _ _ _ _ (hne c hc)]
        exact hopen c (List.mem_cons_of_mem _ hc)
      obtain ⟨m1, hrun, hcl, hrdy, hnrdy, hout⟩ := ih m0 hnd1 hopen0
      refine ⟨m1, ?_, ?_, ?_, ?_, ?_⟩
      · simp only [broadcastLoop, hr, trySend_open_notReady _ _ hconn, close_open _ hconn]
        exact hrun
      · rw [hcl, delete_clients, setChan_clients, List.filter_filter]
        apply List.filter_congr
        intro c _
        by_cases hcc : c = conn
        · subst hcc; simp [hr]
        · simp [hcc]
      · intro c hc hrc
        rcases List.mem_cons.mp hc with h | h
        · subst h; rw [hr] at hrc; cases hrc
        · rw [hrdy c h hrc, delete_chans, setChan_chans_other _ _ _ _ (hne c h)]
      · intro c hc hrc
        rcases List.mem_cons.mp hc with h | h
        · subst h
          rw [hout c hnotin, delete_chans, setChan_chans_same]
        · rw [hnrdy c h hrc, delete_chans, setChan_chans_other _ _ _ _ (hne c h)]
      · intro c hc
        have h1 : c ≠ conn := fun h => hc (h ▸ List.mem_cons_self _ _)
        have h2 : c ∉ rest := fun h => hc (List.mem_cons_of_mem _ h)
        rw [hout c h2, delete_chans, setChan_chans_other _ _ _ _ h1]

/-- Whatever the channels are, a broadcast pass that does not panic leaves a
sublist of the keys. -/
theorem broadcastLoop_sublist (message : Payload) (ready : ClientPtr → Bool) :
    ∀ (l : List ClientPtr) (m m1 : ClientManager),
      (broadcastLoop message ready l m).state? = some m1 → m1.clients.Sublist m.clients := by
  intro l
  induction l with
  | nil =>
    intro m m1 h
    simp only [broadcastLoop, Outcome.state?, Option.some.injEq] at h
    subst h
    exact List.Sublist.refl _
  | cons conn rest ih =>
    intro m m1 h
    simp only [broadcastLoop] at h
    cases hs : (m.chans conn).trySend (ready conn) message with
    | sent ch =>
      rw [hs] at h
      exact ih (m.setChan conn ch) m1 h
    | notReady =>
      rw [hs] at h
      cases hc : (m.chans conn).close with
      | none => rw [hc] at h; simp [Outcome.state?] at h
      | some ch =>
        rw [hc] at h
        have := ih _ _ h
        rw [delete_clients, setChan_clients] at this
        exact this.trans (List.filter_sublist _)
    | closedPanic =>
      rw [hs] at h
      simp [Outcome.state?] at h

/-! ## The pass of `send` -/

/-- Whatever the channels are, a pass of `send` that does not panic leaves the
keys as they are. -/
theorem sendLoop_clients (message : Payload) (ignore : ClientPtr) (ready : ClientPtr → Bool) :
    ∀ (l : List ClientPtr) (m m1 : ClientManager),
      (sendLoop message ignore ready l m).state? = some m1 → m1.clients = m.clients := by
  intro l
  induction l with
  | nil =>
    intro m m1 h
    simp only [sendLoop, Outcome.state?, Option.some.injEq] at h
    rw [h]
  | cons conn rest ih =>
    intro m m1 h
    simp only [sendLoop] at h
    by_cases hi : conn = ignore
    · simp only [hi, ne_eq, not_true_eq_false, if_false] at h
      exact ih _ _ h
    · simp only [ne_eq, hi, not_false_eq_true, if_true] at h
      cases hs : (m.chans conn).trySend (ready conn) message with
      | sent ch =>
        rw [hs] at h
        exact ih (m.setChan conn ch) m1 h
      | notReady =>
        rw [hs] at h
        simp only [Outcome.state?, Option.some.injEq] at h
        rw [h]
      | closedPanic =>
        rw [hs] at h
        simp [Outcome.state?] at h

/-- A pass of `send` over open channels does not panic: it finishes when every
addressee is ready and is suspended otherwise.  It closes nothing, removes
nobody, and leaves alone the channels of the clients it does not address and of
those that are not ready. -/
theorem sendLoop_inv (message : Payload) (ignore : ClientPtr) (ready : ClientPtr → Bool) :
    ∀ (l : List ClientPtr) (m : ClientManager),
      (∀ c ∈ l, c ≠ ignore → (m.chans c).closed = false) →
      ∃ m1, ((sendLoop message ignore ready l m = .done m1 ∧
                ∀ c ∈ l, c ≠ ignore → ready c = true) ∨
             (sendLoop message ignore ready l m = .blocked m1 ∧
                ∃ c ∈ l, c ≠ ignore ∧ ready c = false)) ∧
        m1.clients = m.clients ∧
        (∀ c, (m1.chans c).closed = (m.chans c).closed) ∧
        (∀ c, (c ∉ l ∨ c = ignore ∨ ready c = false) → m1.chans c = m.chans c) := by
  intro l
  induction l with
  | nil =>
    intro m _
    exact ⟨m, Or.inl ⟨rfl, by simp⟩, rfl, fun _ => rfl, fun _ _ => rfl⟩
  | cons conn rest ih =>
    intro m hopen
    by_cases hi : conn = ignore
    · have hopen0 : ∀ c ∈ rest, c ≠ ignore → (m.chans c).closed = false :=
        fun c hc => hopen c (List.mem_cons_of_mem _ hc)
      obtain ⟨m1, hrun, hcl, hclosed, hout⟩ := ih m hopen0
      have hstep : sendLoop message ignore ready (conn :: rest) m =
          sendLoop message ignore ready rest m := by
        simp [sendLoop, hi]
      refine ⟨m1, ?_, hcl, hclosed, ?_⟩
      · rw [hstep]
        rcases hrun with ⟨h1, h2⟩ | ⟨h1, c, hc, h2⟩
        · refine Or.inl ⟨h1, ?_⟩
          intro c hc hne
          rcases List.mem_cons.mp hc with h | h
          · exact absurd (h.trans hi) hne
          · exact h2 c h hne
        · exact Or.inr ⟨h1, c, List.mem_cons_of_mem _ hc, h2⟩
      · intro c hc
        apply hout
        rcases hc with h | h | h
        · exact Or.inl (fun h3 => h (List.mem_cons_of_mem _ h3))
        · exact Or.inr (Or.inl h)
        · exact Or.inr (Or.inr h)
    · have hconn : (m.chans conn).closed = false := hopen conn (List.mem_cons_self _ _) hi
      cases hr : ready conn with
      | false =>
        refine ⟨m, Or.inr ⟨?_, conn, List.mem_cons_self _ _, hi, hr⟩, rfl, fun _ => rfl,
          fun _ _ => rfl⟩
        simp [sendLoop, hi, hr, trySend_open_notReady _ _ hconn]
      | true =>
        let m0 := m.setChan conn { m.chans conn with recvd := (m.chans conn).recvd ++ [message] }
        have hclosed0 : ∀ c, (m0.chans c).closed = (m.chans c).closed := by
          intro c
          by_cases hcc : c = conn
          · subst hcc; rw [setChan_chans_same]
          · rw [setChan_chans_other _ _ _ _ hcc]
        have hopen0 : ∀ c ∈ rest, c ≠ ignore → (m0.chans c).closed = false := by
          intro c hc hne
          rw [hclosed0]
          exact hopen c (List.mem_cons_of_mem _ hc) hne
        obtain ⟨m1, hrun, hcl, hclosed, hout⟩ := ih m0 hopen0
        have hstep : sendLoop message ignore ready (conn :: rest) m =
            sendLoop message ignore ready rest m0 := by
          simp [sendLoop, hi, hr, trySend_open_ready _ _ hconn, m0]
        refine ⟨m1, ?_, by rw [hcl, setChan_clients], ?_, ?_⟩
        · rw [hstep]
          rcases hrun with ⟨h1, h2⟩ | ⟨h1, c, hc, h2⟩
          · refine Or.inl ⟨h1, ?_⟩
            intro c hc hne
            rcases List.mem_cons.mp hc with h | h
            · rw [h]; exact hr
            · exact h2 c h hne
          · exact Or.inr ⟨h1, c, List.mem_cons_of_mem _ hc, h2⟩
        · intro c
          rw [hclosed c, hclosed0 c]
        · intro c hc
          have hcc : c ≠ conn := by
            rcases hc with h | h | h
            · exact fun h3 => h (h3 ▸ List.mem_cons_self _ _)
            · exact fun h3 => hi (h3 ▸ h)
            · intro h3; rw [h3, hr] at h; cases h
          have hc0 : c ∉ rest ∨ c = ignore ∨ ready c = false := by
            rcases hc with h | h | h
            · exact Or.inl (fun h3 => h (List.mem_cons_of_mem _ h3))
            · exact Or.inr (Or.inl h)
            · exact Or.inr (Or.inr h)
          rw [hout c hc0, setChan_chans_other _ _ _ _ hcc]

/-- A pass of `send` over duplicate-free keys whose addressees are all open and
ready finishes, and every addressee gets the message once. -/
theorem sendLoop_ready (message : Payload) (ignore : ClientPtr) (ready : ClientPtr → Bool) :
    ∀ (l : List ClientPtr) (m : ClientManager), l.Nodup →
      (∀ c ∈ l, c ≠ ignore → (m.chans c).closed = false ∧ ready c = true) →
      ∃ m1, sendLoop message ignore ready l m = .done m1 ∧
        m1.clients = m.clients ∧
        (∀ c ∈ l, c ≠ ignore →
          m1.chans c = { closed := false, recvd := (m.chans c).recvd ++ [message] }) ∧
        (∀ c, (c ∉ l ∨ c = ignore) → m1.chans c = m.chans c) := by
  intro l
  induction l with
  | nil =>
    intro m _ _
    exact ⟨m, rfl, rfl, by simp, fun _ _ => rfl⟩
  | cons conn rest ih =>
    intro m hnd hok
    have hnotin : conn ∉ rest := (List.nodup_cons.mp hnd).1
    have hnd1 : rest.Nodup := (List.nodup_cons.mp hnd).2
    have hne : ∀ c ∈ rest, c ≠ conn := fun c hc h => hnotin (h ▸ hc)
    by_cases hi : conn = ignore
    · obtain ⟨m1, hrun, hcl, hin, hout⟩ :=
        ih m hnd1 (fun c hc => hok c (List.mem_cons_of_mem _ hc))
      refine ⟨m1, ?_, hcl, ?_, ?_⟩
      · simpa [sendLoop, hi] using hrun
      · intro c hc hcne
        rcases List.mem_cons.mp hc with h | h
        · exact absurd (h.trans hi) hcne
        · exact hin c h hcne
      · intro c hc
        apply hout
        rcases hc with h | h
        · exact Or.inl (fun h3 => h (List.mem_cons_of_mem _ h3))
        · exact Or.inr h
    · obtain ⟨hconn, hr⟩ := hok conn (List.mem_cons_self _ _) hi
      let m0 := m.setChan conn { m.chans conn with recvd := (m.chans conn).recvd ++ [message] }
      have hok0 : ∀ c ∈ rest, c ≠ ignore → (m0.chans c).closed = false ∧ ready c = true := by
        intro c hc hcne
        rw [setChan_chans_other _ _ _ _ (hne c hc)]
        exact hok c (List.mem_cons_of_mem _ hc) hcne
      obtain ⟨m1, hrun, hcl, hin, hout⟩ := ih m0 hnd1 hok0
      refine ⟨m1, ?_, by rw [hcl, setChan_clients], ?_, ?_⟩
      · simpa [sendLoop, hi, hr, trySend_open_ready _ _ hconn, m0] using hrun
      · intro c hc hcne
        rcases List.mem_cons.mp hc with h | h
        · subst h
          rw [hout c (Or.inl hnotin), setChan_chans_same]
          simp [hconn]
        · rw [hin c h hcne, setChan_chans_other _ _ _ _ (hne c h)]
      · intro c hc
        have hcc : c ≠ conn := by
          rcases hc with h | h
          · exact fun h3 => h (h3 ▸ List.mem_cons_self _ _)
          · exact fun h3 => hi (h3 ▸ h)
        have hc0 : c ∉ rest ∨ c = ignore := by
          rcases hc with h | h
          · exact Or.inl (fun h3 => h (List.mem_cons_of_mem _ h3))
          · exact Or.inr h
        rw [hout c hc0, setChan_chans_other _ _ _ _ hcc]

/-! ## One event -/

theorem insert_chans (m : ClientManager) (conn : ClientPtr) :
    (m.insert conn).chans = m.chans := by
  unfold ClientManager.insert
  split <;> rfl

theorem mem_insert_clients (m : ClientManager) (conn c : ClientPtr) :
    c ∈ (m.insert conn).clients ↔ c ∈ m.clients ∨ c = conn := by
  unfold ClientManager.insert
  split
  · constructor
    · exact Or.inl
    · rintro (h | h)
      · exact h
      · subst h; assumption
  · simp

theorem insert_nodup (m : ClientManager) (conn : ClientPtr) (h : m.clients.Nodup) :
    (m.insert conn).clients.Nodup := by
  unfold ClientManager.insert
  split
  · exact h
  · rename_i hn
    simp only
    rw [List.nodup_append]
    refine ⟨h, List.nodup_singleton _, ?_⟩
    intro a ha hb
    rw [List.mem_singleton] at hb
    exact hn (hb ▸ ha)

theorem insert_clients_of_not_mem (m : ClientManager) (conn : ClientPtr) (h : conn ∉ m.clients) :
    (m.insert conn).clients = m.clients ++ [conn] := by
  simp [ClientManager.insert, h]

/-- The unregister case for a member with an open channel: the pass of `send`
that follows the `close` and the `delete`. -/
theorem startEvent_unregister_mem (m : ClientManager) (conn : ClientPtr)
    (ready : ClientPtr → Bool) (hmem : conn ∈ m.clients) (hopen : (m.chans conn).closed = false) :
    m.startEvent (.unregister conn) ready =
      sendLoop leaveNotice conn ready (m.clients.filter (fun c => c ≠ conn))
        ((m.setChan conn { m.chans conn with closed := true }).delete conn) := by
  simp [ClientManager.startEvent, hmem, close_open _ hopen, ClientManager.send, delete_clients,
    setChan_clients]

theorem startEvent_unregister_not_mem (m : ClientManager) (conn : ClientPtr)
    (ready : ClientPtr → Bool) (hmem : conn ∉ m.clients) :
    m.startEvent (.unregister conn) ready = .done m := by
  simp [ClientManager.startEvent, hmem]

theorem length_filter_ne_succ (l : List ClientPtr) (conn : ClientPtr) (hnd : l.Nodup)
    (hmem : conn ∈ l) : (l.filter (fun c => c ≠ conn)).length + 1 = l.length := by
  induction l with
  | nil => cases hmem
  | cons a rest ih =>
    have hnotin : a ∉ rest := (List.nodup_cons.mp hnd).1
    have hnd1 : rest.Nodup := (List.nodup_cons.mp hnd).2
    by_cases h : a = conn
    · subst h
      have hne : ∀ c ∈ rest, ¬ c = a := fun c hc h => hnotin (h ▸ hc)
      simpa using hne
    · have hm : conn ∈ rest := by
        rcases List.mem_cons.mp hmem with h1 | h1
        · exact absurd h1.symm h
        · exact h1
      have := ih hnd1 hm
      simp only [ne_eq, decide_not] at this
      simp [h, this]

/-- The register case when every present member is open and ready: the pass
finishes, the newcomer is a member, every other member gets the join notice
once, the newcomer gets nothing. -/
theorem register_all_ready (s : ClientManager) (conn : ClientPtr) (ready : ClientPtr → Bool)
    (hwf : s.WF) (hnew : conn ∉ s.clients) (hroom : ∀ c ∈ s.clients, ready c = true) :
    ∃ s1, s.startEvent (.register conn) ready = .done s1 ∧
      s1.clients = s.clients ++ [conn] ∧
      (∀ c ∈ s.clients,
        s1.chans c = { closed := false, recvd := (s.chans c).recvd ++ [joinNotice] }) ∧
      s1.chans conn = s.chans conn ∧
      (∀ c, c ∉ s.clients → s1.chans c = s.chans c) := by
  have hnd : (s.insert conn).clients.Nodup := insert_nodup _ _ hwf.1
  have hok : ∀ c ∈ (s.insert conn).clients, c ≠ conn →
      ((s.insert conn).chans c).closed = false ∧ ready c = true := by
    intro c hc hne
    rcases (mem_insert_clients _ _ _).mp hc with h | h
    · rw [insert_chans]; exact ⟨hwf.2 c h, hroom c h⟩
    · exact absurd h hne
  obtain ⟨s1, hrun, hcl, hin, hout⟩ :=
    sendLoop_ready joinNotice conn ready (s.insert conn).clients (s.insert conn) hnd hok
  refine ⟨s1, hrun, ?_, ?_, ?_, ?_⟩
  · rw [hcl, insert_clients_of_not_mem _ _ hnew]
  · intro c hc
    have hne : c ≠ conn := fun h => hnew (h ▸ hc)
    rw [hin c ((mem_insert_clients _ _ _).mpr (Or.inl hc)) hne, insert_chans]
  · rw [hout conn (Or.inr rfl), insert_chans]
  · intro c hc
    by_cases hcc : c = conn
    · rw [hout c (Or.inr hcc), insert_chans]
    · have : c ∉ (s.insert conn).clients := by
        rw [mem_insert_clients]
        rintro (h | h)
        · exact hc h
        · exact hcc h
      rw [hout c (Or.inl this), insert_chans]

/-! ## The claims about one event -/

/-- C1. Broadcast fan-out: in a registry whose members are listed once and
have open queues, one `Broadcast(m)` finishes; exactly the members whose queue
accepts at once stay, each with `m` appended once to what it received; every
member whose queue does not accept is removed, its queue closed and nothing
added to it; the queues of connections outside the set are untouched. -/
theorem broadcast_fanout (s : ClientManager) (m : Payload) (ready : ClientPtr → Bool)
    (hwf : s.WF) :
    ∃ s1, s.startEvent (.broadcast m) ready = .done s1 ∧
      s1.clients = s.clients.filter ready ∧
      (∀ c ∈ s.clients, ready c = true →
        c ∈ s1.clients ∧
        s1.chans c = { closed := false, recvd := (s.chans c).recvd ++ [m] }) ∧
      (∀ c ∈ s.clients, ready c = false →
        c ∉ s1.clients ∧ s1.chans c = { closed := true, recvd := (s.chans c).recvd }) ∧
      (∀ c, c ∉ s.clients → s1.chans c = s.chans c) := by
  obtain ⟨s1, hrun, hcl, hrdy, hnrdy, hout⟩ :=
    broadcastLoop_spec m ready s.clients s hwf.1 hwf.2
  have hcl1 : s1.clients = s.clients.filter ready := by
    rw [hcl]
    apply List.filter_congr
    intro c hc
    simp [hc]
  refine ⟨s1, hrun, hcl1, ?_, ?_, hout⟩
  · intro c hc hr
    refine ⟨?_, hrdy c hc hr⟩
    rw [hcl1, List.mem_filter]
    exact ⟨hc, hr⟩
  · intro c hc hr
    refine ⟨?_, hnrdy c hc hr⟩
    rw [hcl1, List.mem_filter]
    intro h
    rw [hr] at h
    exact Bool.false_ne_true h.2

/-- Witness of C1: clients 1 and 2 on fresh channels, only 1 ready. -/
theorem broadcast_fanout_witness :
    (roomOf [1, 2]).WF ∧
    ∃ s1, (roomOf [1, 2]).startEvent (.broadcast "hi") (fun c => decide (c = 1)) = .done s1 ∧
      s1.clients = [1] ∧ s1.chans 1 = { closed := false, recvd := ["hi"] } ∧
      s1.chans 2 = { closed := true, recvd := [] } := by
  have hwf : (roomOf [1, 2]).WF := ⟨by decide, by decide⟩
  obtain ⟨s1, h1, h2, h3, h4, _⟩ :=
    broadcast_fanout (roomOf [1, 2]) "hi" (fun c => decide (c = 1)) hwf
  refine ⟨hwf, s1, h1, ?_, ?_, ?_⟩
  · rw [h2]; rfl
  · rw [(h3 1 (by decide) (by decide)).2]; rfl
  · rw [(h4 2 (by decide) (by decide)).2]; rfl

/-- C2 (what the code does). The fan-out of the join and leave notices is the
blocking send of `ClientManager.send`: when another member `a` is not ready to
receive, the register pass, and the unregister pass of a member, are suspended
instead of finishing, and `a` is neither evicted nor closed. -/
theorem notice_fanout_suspends (s : ClientManager) (conn a : ClientPtr)
    (ready : ClientPtr → Bool) (hwf : s.WF) (ha : a ∈ s.clients) (hne : a ≠ conn)
    (hnr : ready a = false) :
    (∃ s1, s.startEvent (.register conn) ready = .blocked s1 ∧
      a ∈ s1.clients ∧ s1.chans a = s.chans a ∧ (s1.chans a).closed = false) ∧
    (conn ∈ s.clients →
      ∃ s1, s.startEvent (.unregister conn) ready = .blocked s1 ∧
        a ∈ s1.clients ∧ s1.chans a = s.chans a ∧ (s1.chans a).closed = false) := by
  constructor
  · have hopen : ∀ c ∈ (s.insert conn).clients, c ≠ conn →
        ((s.insert conn).chans c).closed = false := by
      intro c hc hcn
      rcases (mem_insert_clients _ _ _).mp hc with h | h
      · rw [insert_chans]; exact hwf.2 c h
      · exact absurd h hcn
    have ha1 : a ∈ (s.insert conn).clients := (mem_insert_clients _ _ _).mpr (Or.inl ha)
    obtain ⟨s1, hrun, hcl, _, hout⟩ :=
      sendLoop_inv joinNotice conn ready (s.insert conn).clients (s.insert conn) hopen
    rcases hrun with ⟨_, hall⟩ | ⟨hb, _⟩
    · have := hall a ha1 hne
      rw [hnr] at this
      cases this
    · have hch : s1.chans a = s.chans a := by
        rw [hout a (Or.inr (Or.inr hnr)), insert_chans]
      exact ⟨s1, hb, by rw [hcl]; exact ha1, hch, by rw [hch]; exact hwf.2 a ha⟩
  · intro hmem
    have hconn : (s.chans conn).closed = false := hwf.2 conn hmem
    let m0 := (s.setChan conn { s.chans conn with closed := true }).delete conn
    have hm0 : ∀ c, c ≠ conn → m0.chans c = s.chans c := by
      intro c hc
      rw [delete_chans, setChan_chans_other _ _ _ _ hc]
    have hopen : ∀ c ∈ s.clients.filter (fun c => c ≠ conn), c ≠ conn →
        (m0.chans c).closed = false := by
      intro c hc hcn
      rw [hm0 c hcn]
      exact hwf.2 c (List.mem_filter.mp hc).1
    have ha1 : a ∈ s.clients.filter (fun c => c ≠ conn) := by
      rw [List.mem_filter]
      exact ⟨ha, by simp [hne]⟩
    obtain ⟨s1, hrun, hcl, _, hout⟩ :=
      sendLoop_inv leaveNotice conn ready (s.clients.filter (fun c => c ≠ conn)) m0 hopen
    rw [startEvent_unregister_mem s conn ready hmem hconn]
    rcases hrun with ⟨_, hall⟩ | ⟨hb, _⟩
    · have := hall a ha1 hne
      rw [hnr] at this
      cases this
    · have hch : s1.chans a = s.chans a := by
        rw [hout a (Or.inr (Or.inr hnr)), hm0 a hne]
      refine ⟨s1, hb, ?_, hch, by rw [hch]; exact hwf.2 a ha⟩
      rw [hcl, delete_clients, setChan_clients]
      exact ha1

/-- Witness of C2: member 1 is not ready when 2 joins, and when member 3 leaves. -/
theorem notice_fanout_suspends_witness :
    (roomOf [1, 3]).WF ∧ 1 ∈ (roomOf [1, 3]).clients ∧
    (∃ s1, (roomOf [1, 3]).startEvent (.register 2) (fun _ => false) = .blocked s1 ∧
      1 ∈ s1.clients ∧ (s1.chans 1).closed = false) ∧
    (∃ s1, (roomOf [1, 3]).startEvent (.unregister 3) (fun _ => false) = .blocked s1 ∧
      1 ∈ s1.clients ∧ (s1.chans 1).closed = false) := by
  have hwf : (roomOf [1, 3]).WF := ⟨by decide, by decide⟩
  have hmem : (1 : ClientPtr) ∈ (roomOf [1, 3]).clients := by decide
  have h2 := notice_fanout_suspends (roomOf [1, 3]) 2 1 (fun _ => false) hwf hmem (by decide) rfl
  have h3 := notice_fanout_suspends (roomOf [1, 3]) 3 1 (fun _ => false) hwf hmem (by decide) rfl
  obtain ⟨s1, e1, m1, _, c1⟩ := h2.1
  obtain ⟨s2, e2, m2, _, c2⟩ := h3.2 (by decide)
  exact ⟨hwf, hmem, ⟨s1, e1, m1, c1⟩, ⟨s2, e2, m2, c2⟩⟩

/-- C3. Leave is idempotent: for a member `conn` of a registry whose members
are listed once with open queues, all the others ready, `Leave(conn)` finishes,
removes exactly `conn`, closes its queue (adding nothing to it), appends the
disconnect notice once to every remaining member and touches no other queue; a
second `Leave(conn)` finishes in the same state; and so does any `Leave` of a
connection that is not a member. -/
theorem leave_idempotent (s : ClientManager) (conn : ClientPtr) (r1 r2 : ClientPtr → Bool)
    (hwf : s.WF) (hmem : conn ∈ s.clients)
    (hroom : ∀ c ∈ s.clients, c ≠ conn → r1 c = true) :
    ∃ s1, s.startEvent (.unregister conn) r1 = .done s1 ∧
      s1.clients = s.clients.filter (fun c => c ≠ conn) ∧
      s1.clients.length + 1 = s.clients.length ∧
      s1.chans conn = { closed := true, recvd := (s.chans conn).recvd } ∧
      (∀ c ∈ s1.clients,
        s1.chans c = { closed := false, recvd := (s.chans c).recvd ++ [leaveNotice] }) ∧
      (∀ c, c ∉ s.clients → s1.chans c = s.chans c) ∧
      s1.startEvent (.unregister conn) r2 = .done s1 ∧
      (∀ (t : ClientManager) (d : ClientPtr) (r : ClientPtr → Bool),
        d ∉ t.clients → t.startEvent (.unregister d) r = .done t) := by
  have hconn : (s.chans conn).closed = false := hwf.2 conn hmem
  let m0 := (s.setChan conn { s.chans conn with closed := true }).delete conn
  have hm0 : ∀ c, c ≠ conn → m0.chans c = s.chans c := by
    intro c hc
    rw [delete_chans, setChan_chans_other _ _ _ _ hc]
  have hm0c : m0.chans conn = { closed := true, recvd := (s.chans conn).recvd } := by
    rw [delete_chans, setChan_chans_same]
  have hnd : (s.clients.filter (fun c => c ≠ conn)).Nodup := hwf.1.filter _
  have hok : ∀ c ∈ s.clients.filter (fun c => c ≠ conn), c ≠ conn →
      (m0.chans c).closed = false ∧ r1 c = true := by
    intro c hc hcn
    have hcs : c ∈ s.clients := (List.mem_filter.mp hc).1
    rw [hm0 c hcn]
    exact ⟨hwf.2 c hcs, hroom c hcs hcn⟩
  obtain ⟨s1, hrun, hcl, hin, hout⟩ :=
    sendLoop_ready leaveNotice conn r1 (s.clients.filter (fun c => c ≠ conn)) m0 hnd hok
  have hcl1 : s1.clients = s.clients.filter (fun c => c ≠ conn) := by
    rw [hcl, delete_clients, setChan_clients]
  have hnot : conn ∉ s1.clients := by
    rw [hcl1, List.mem_filter]
    rintro ⟨_, h⟩
    simp at h
  refine ⟨s1, ?_, hcl1, ?_, ?_, ?_, ?_, ?_, ?_⟩
  · rw [startEvent_unregister_mem s conn r1 hmem hconn]
    exact hrun
  · rw [hcl1]
    exact length_filter_ne_succ _ _ hwf.1 hmem
  · rw [hout conn (Or.inr rfl), hm0c]
  · intro c hc
    rw [hcl1] at hc
    have hcn : c ≠ conn := by
      have := (List.mem_filter.mp hc).2
      simpa using this
    rw [hin c hc hcn, hm0 c hcn]
  · intro c hc
    have hcn : c ≠ conn := fun h => hc (h ▸ hmem)
    have : c ∉ s.clients.filter (fun c => c ≠ conn) := fun h => hc (List.mem_filter.mp h).1
    rw [hout c (Or.inl this), hm0 c hcn]
  · exact startEvent_unregister_not_mem s1 conn r2 hnot
  · intro t d r hd
    exact startEvent_unregister_not_mem t d r hd

/-- Witness of C3: client 2 leaves the registry of 1, 2, 3, everybody ready. -/
theorem leave_idempotent_witness :
    (roomOf [1, 2, 3]).WF ∧ 2 ∈ (roomOf [1, 2, 3]).clients ∧
    ∃ s1, (roomOf [1, 2, 3]).startEvent (.unregister 2) (fun _ => true) = .done s1 ∧
      s1.clients = [1, 3] ∧ s1.chans 2 = { closed := true, recvd := [] } ∧
      s1.chans 1 = { closed := false, recvd := [leaveNotice] } ∧
      s1.startEvent (.unregister 2) (fun _ => false) = .done s1 := by
  have hwf : (roomOf [1, 2, 3]).WF := ⟨by decide, by decide⟩
  have hmem : (2 : ClientPtr) ∈ (roomOf [1, 2, 3]).clients := by decide
  obtain ⟨s1, h1, h2, _, h4, h5, _, h7, _⟩ :=
    leave_idempotent (roomOf [1, 2, 3]) 2 (fun _ => true) (fun _ => false) hwf hmem
      (fun _ _ _ => rfl)
  have hc : s1.clients = [1, 3] := by rw [h2]; rfl
  refine ⟨hwf, hmem, s1, h1, hc, ?_, ?_, h7⟩
  · rw [h4]; rfl
  · rw [h5 1 (by rw [hc]; decide)]; rfl

/-- C4 (what the code does). Clients 1 and 2 are members, the receiver of 2 is
parked on its channel and the receiver of 1 is not; `range` yields 1 first.
`Join(3)` makes 3 a member and is then suspended in the blocking send to 1:
member 2, whose queue has room, has received no join notice, and neither has 3. -/
theorem register_suspends_before_ready_member :
    ∃ s1, (roomOf [1, 2]).startEvent (.register 3) (fun c => decide (c = 2)) = .blocked s1 ∧
      s1.clients = [1, 2, 3] ∧ (s1.chans 1).recvd = [] ∧ (s1.chans 2).recvd = [] ∧
      (s1.chans 3).recvd = [] :=
  ⟨_, rfl, rfl, rfl, rfl, rfl⟩

/-! ## Every event keeps the registry well formed -/

/-- From a registry whose members are listed once with open queues, no event
panics: the pass finishes or is suspended.  Members are listed once afterwards,
a new member is the one registered, and a queue changes its closed flag only
when its connection is a member that the pass removes. -/
theorem startEvent_total (s : ClientManager) (ev : Event) (ready : ClientPtr → Bool)
    (hwf : s.WF) :
    ∃ s1, (s.startEvent ev ready = .done s1 ∨ s.startEvent ev ready = .blocked s1) ∧
      s1.clients.Nodup ∧
      (∀ c ∈ s1.clients, c ∈ s.clients ∨ ev = .register c) ∧
      (∀ c, (s1.chans c).closed = (s.chans c).closed ∨ (c ∈ s.clients ∧ c ∉ s1.clients)) := by
  cases ev with
  | register conn =>
    have hopen : ∀ c ∈ (s.insert conn).clients, c ≠ conn →
        ((s.insert conn).chans c).closed = false := by
      intro c hc hcn
      rcases (mem_insert_clients _ _ _).mp hc with h | h
      · rw [insert_chans]; exact hwf.2 c h
      · exact absurd h hcn
    obtain ⟨s1, hrun, hcl, hclosed, _⟩ :=
      sendLoop_inv joinNotice conn ready (s.insert conn).clients (s.insert conn) hopen
    refine ⟨s1, ?_, ?_, ?_, ?_⟩
    · rcases hrun with ⟨h, _⟩ | ⟨h, _⟩
      · exact Or.inl h
      · exact Or.inr h
    · rw [hcl]; exact insert_nodup _ _ hwf.1
    · intro c hc
      rw [hcl] at hc
      rcases (mem_insert_clients _ _ _).mp hc with h | h
      · exact Or.inl h
      · exact Or.inr (by rw [h])
    · intro c
      left
      rw [hclosed c, insert_chans]
  | unregister conn =>
    by_cases hmem : conn ∈ s.clients
    · have hconn : (s.chans conn).closed = false := hwf.2 conn hmem
      let m0 := (s.setChan conn { s.chans conn with closed := true }).delete conn
      have hm0 : ∀ c, c ≠ conn → m0.chans c = s.chans c := by
        intro c hc
        rw [delete_chans, setChan_chans_other _ _ _ _ hc]
      have hopen : ∀ c ∈ s.clients.filter (fun c => c ≠ conn), c ≠ conn →
          (m0.chans c).closed = false := by
        intro c hc hcn
        rw [hm0 c hcn]
        exact hwf.2 c (List.mem_filter.mp hc).1
      obtain ⟨s1, hrun, hcl, hclosed, _⟩ :=
        sendLoop_inv leaveNotice conn ready (s.clients.filter (fun c => c ≠ conn)) m0 hopen
      have hcl1 : s1.clients = s.clients.filter (fun c => c ≠ conn) := by
        rw [hcl, delete_clients, setChan_clients]
      refine ⟨s1, ?_, ?_, ?_, ?_⟩
      · rw [startEvent_unregister_mem s conn ready hmem hconn]
        rcases hrun with ⟨h, _⟩ | ⟨h, _⟩
        · exact Or.inl h
        · exact Or.inr h
      · rw [hcl1]; exact hwf.1.filter _
      · intro c hc
        rw [hcl1] at hc
        exact Or.inl (List.mem_filter.mp hc).1
      · intro c
        by_cases hcc : c = conn
        · right
          subst hcc
          refine ⟨hmem, ?_⟩
          rw [hcl1, List.mem_filter]
          rintro ⟨_, h⟩
          simp at h
        · left
          rw [hclosed c, hm0 c hcc]
    · exact ⟨s, Or.inl (startEvent_unregister_not_mem s conn ready hmem), hwf.1,
        fun c hc => Or.inl hc, fun c => Or.inl rfl⟩
  | broadcast message =>
    obtain ⟨s1, hrun, hcl, hrdy, hnrdy, hout⟩ :=
      broadcastLoop_spec message ready s.clients s hwf.1 hwf.2
    refine ⟨s1, Or.inl hrun, ?_, ?_, ?_⟩
    · rw [hcl]; exact hwf.1.filter _
    · intro c hc
      rw [hcl] at hc
      exact Or.inl (List.mem_filter.mp hc).1
    · intro c
      by_cases hc : c ∈ s.clients
      · cases hr : ready c with
        | true =>
          left
          rw [hrdy c hc hr, hwf.2 c hc]
        | false =>
          right
          refine ⟨hc, ?_⟩
          rw [hcl, List.mem_filter]
          rintro ⟨_, h⟩
          simp [hc, hr] at h
      · left
        rw [hout c hc]

/-- C8. Eviction monotonicity: whatever state an event leaves (finished or
suspended), a Leave or a Broadcast leaves a sublist of the active set, so no
new member and no greater size, and a Join keeps every member and adds at most
the joining connection; and from a registry whose members are listed once with
open queues every event does leave a state. -/
theorem active_set_monotone (s : ClientManager) (ev : Event) (ready : ClientPtr → Bool) :
    (∀ s1, (s.startEvent ev ready).state? = some s1 →
      (∀ conn, ev = .register conn →
        s.clients ⊆ s1.clients ∧ (∀ c ∈ s1.clients, c ∈ s.clients ∨ c = conn) ∧
        s1.clients.length ≤ s.clients.length + 1) ∧
      ((∀ conn, ev ≠ .register conn) →
        s1.clients.Sublist s.clients ∧ s1.clients ⊆ s.clients ∧
        s1.clients.length ≤ s.clients.length)) ∧
    (s.WF → ∃ s1, (s.startEvent ev ready).state? = some s1) := by
  constructor
  · intro s1 h
    cases ev with
    | register conn =>
      refine ⟨?_, fun hno => absurd rfl (hno conn)⟩
      intro conn1 he
      cases he
      have hcl : s1.clients = (s.insert conn).clients :=
        sendLoop_clients joinNotice conn ready _ _ _ h
      refine ⟨?_, ?_, ?_⟩
      · intro c hc
        rw [hcl]
        exact (mem_insert_clients _ _ _).mpr (Or.inl hc)
      · intro c hc
        rw [hcl] at hc
        exact (mem_insert_clients _ _ _).mp hc
      · rw [hcl]
        unfold ClientManager.insert
        split
        · exact Nat.le_succ _
        · simp
    | unregister conn =>
      refine ⟨fun conn1 he => Event.noConfusion he, fun _ => ?_⟩
      have hsub : s1.clients.Sublist s.clients := by
        by_cases hmem : conn ∈ s.clients
        · simp only [ClientManager.startEvent, hmem, if_true] at h
          cases hc : (s.chans conn).close with
          | none => rw [hc] at h; simp [Outcome.state?] at h
          | some ch =>
            rw [hc] at h
            have hcl := sendLoop_clients leaveNotice conn ready _ _ _ h
            rw [hcl, delete_clients, setChan_clients]
            exact List.filter_sublist _
        · rw [startEvent_unregister_not_mem s conn ready hmem] at h
          simp only [Outcome.state?, Option.some.injEq] at h
          rw [← h]
      exact ⟨hsub, hsub.subset, hsub.length_le⟩
    | broadcast message =>
      refine ⟨fun conn1 he => Event.noConfusion he, fun _ => ?_⟩
      have hsub : s1.clients.Sublist s.clients :=
        broadcastLoop_sublist message ready s.clients s s1 h
      exact ⟨hsub, hsub.subset, hsub.length_le⟩
  · intro hwf
    obtain ⟨s1, hrun, _⟩ := startEvent_total s ev ready hwf
    rcases hrun with h | h
    · exact ⟨s1, by rw [h]; rfl⟩
    · exact ⟨s1, by rw [h]; rfl⟩

/-! ## The control loop -/

theorem rangeOrder_chans (m : ClientManager) (order : List ClientPtr) :
    (m.rangeOrder order).chans = m.chans := by
  unfold ClientManager.rangeOrder
  split <;> rfl

theorem rangeOrder_perm (m : ClientManager) (order : List ClientPtr) :
    (m.rangeOrder order).clients.Perm m.clients := by
  unfold ClientManager.rangeOrder
  split
  · rename_i h
    exact List.isPerm_iff.mp h
  · exact List.Perm.refl _

theorem mem_rangeOrder (m : ClientManager) (order : List ClientPtr) (c : ClientPtr) :
    c ∈ (m.rangeOrder order).clients ↔ c ∈ m.clients :=
  (rangeOrder_perm m order).mem_iff

theorem rangeOrder_WF (m : ClientManager) (order : List ClientPtr) (h : m.WF) :
    (m.rangeOrder order).WF := by
  refine ⟨(rangeOrder_perm m order).nodup_iff.mpr h.1, ?_⟩
  intro c hc
  rw [rangeOrder_chans]
  exact h.2 c ((mem_rangeOrder m order c).mp hc)

theorem start_cons_done (m m1 : ClientManager) (t : Turn) (rest : List Turn)
    (h : (m.rangeOrder t.order).startEvent t.ev t.ready = .done m1) :
    m.start (t :: rest) = m1.start rest := by
  simp [ClientManager.start, h]

theorem start_cons_blocked (m m1 : ClientManager) (t : Turn) (rest : List Turn)
    (h : (m.rangeOrder t.order).startEvent t.ev t.ready = .blocked m1) :
    m.start (t :: rest) = .blocked m1 := by
  simp [ClientManager.start, h]

theorem joined_cons (t : Turn) (rest : List Turn) :
    joined (t :: rest) = joined [t] ++ joined rest := by
  unfold joined
  rw [← List.filterMap_append]
  rfl

theorem mem_joined_single (t : Turn) (c : ClientPtr) (h : t.ev = .register c) :
    c ∈ joined [t] := by
  simp [joined, List.filterMap, Turn.joins, h]

/-- The loop keeps, from any registry, the three facts: members are listed once
with open queues, members have been registered, closed queues belong to
registered connections. `J` lists the connections registered before. -/
theorem start_inv : ∀ (turns : List Turn) (m : ClientManager) (J : List ClientPtr),
    m.WF → (∀ c ∈ m.clients, c ∈ J) → (∀ c, (m.chans c).closed = true → c ∈ J) →
    (joined turns).Nodup → (∀ c ∈ joined turns, c ∉ J) →
    ∃ s, (m.start turns = .done s ∨ m.start turns = .blocked s) ∧ s.WF ∧
      (∀ c ∈ s.clients, c ∈ J ++ joined turns) ∧
      (∀ c, (s.chans c).closed = true → c ∈ J ++ joined turns) := by
  intro turns
  induction turns with
  | nil =>
    intro m J hwf hmem hclosed _ _
    exact ⟨m, Or.inl rfl, hwf, fun c hc => List.mem_append_left _ (hmem c hc),
      fun c hc => List.mem_append_left _ (hclosed c hc)⟩
  | cons t rest ih =>
    intro m J hwf hmem hclosed hnd hfresh
    rw [joined_cons] at hnd hfresh
    obtain ⟨hnd1, hnd2, hdisj⟩ := List.nodup_append.mp hnd
    have hwf0 := rangeOrder_WF m t.order hwf
    obtain ⟨s1, hrun, hnd_s1, hnew, hflag⟩ :=
      startEvent_total (m.rangeOrder t.order) t.ev t.ready hwf0
    -- the facts about the state after this turn, with `J ++ joined [t]` registered
    have hmem1 : ∀ c ∈ s1.clients, c ∈ J ++ joined [t] := by
      intro c hc
      rcases hnew c hc with h | h
      · exact List.mem_append_left _ (hmem c ((mem_rangeOrder m t.order c).mp h))
      · exact List.mem_append_right _ (mem_joined_single t c h)
    have hclosed1 : ∀ c, (s1.chans c).closed = true → c ∈ J ++ joined [t] := by
      intro c hc
      rcases hflag c with h | ⟨h, _⟩
      · rw [h, rangeOrder_chans] at hc
        exact List.mem_append_left _ (hclosed c hc)
      · exact List.mem_append_left _ (hmem c ((mem_rangeOrder m t.order c).mp h))
    have hopen1 : ∀ c ∈ s1.clients, (s1.chans c).closed = false := by
      intro c hc
      rcases hflag c with h | ⟨_, h⟩
      · rw [h, rangeOrder_chans]
        rcases hnew c hc with h1 | h1
        · exact hwf.2 c ((mem_rangeOrder m t.order c).mp h1)
        · have hcJ : c ∉ J :=
            hfresh c (List.mem_append_left _ (mem_joined_single t c h1))
          cases hcl : (m.chans c).closed with
          | false => rfl
          | true => exact absurd (hclosed c hcl) hcJ
      · exact absurd hc h
    have hwf1 : s1.WF := ⟨hnd_s1, hopen1⟩
    rcases hrun with hdone | hblocked
    · have hfresh1 : ∀ c ∈ joined rest, c ∉ J ++ joined [t] := by
        intro c hc hin
        rcases List.mem_append.mp hin with h | h
        · exact hfresh c (List.mem_append_right _ hc) h
        · exact hdisj h hc
      obtain ⟨s, hs, hwfs, hmems, hcloseds⟩ :=
        ih s1 (J ++ joined [t]) hwf1 hmem1 hclosed1 hnd2 hfresh1
      refine ⟨s, ?_, hwfs, ?_, ?_⟩
      · rw [start_cons_done m s1 t rest hdone]
        exact hs
      · intro c hc
        rw [joined_cons, ← List.append_assoc]
        exact hmems c hc
      · intro c hc
        rw [joined_cons, ← List.append_assoc]
        exact hcloseds c hc
    · refine ⟨s1, Or.inr (start_cons_blocked m s1 t rest hblocked), hwf1, ?_, ?_⟩
      · intro c hc
        rw [joined_cons, ← List.append_assoc]
        exact List.mem_append_left _ (hmem1 c hc)
      · intro c hc
        rw [joined_cons, ← List.append_assoc]
        exact List.mem_append_left _ (hclosed1 c hc)

/-- C10. Along every sequence of events from the empty registry in which no
connection is registered twice (each arrives with the open queue `wsPage` made
for it), whatever the readiness of the receivers and the order of each pass:
after every number `k` of turns the loop has not panicked, it is between two
events or suspended in a send with every member listed once and its queue open,
and every closed queue belongs to a connection that was registered and is no
longer a member.  Moreover a single event, from any such registry, never
panics and closes a queue only of a member that the same event removes. -/
theorem members_open_along_runs (turns : List Turn) (hjoin : (joined turns).Nodup) :
    (∀ k, ∃ s,
      (manager.start (turns.take k) = .done s ∨ manager.start (turns.take k) = .blocked s) ∧
      s.WF ∧
      (∀ c, (s.chans c).closed = true → c ∈ joined (turns.take k) ∧ c ∉ s.clients)) ∧
    (∀ (s : ClientManager) (ev : Event) (ready : ClientPtr → Bool), s.WF →
      ∃ s1, (s.startEvent ev ready = .done s1 ∨ s.startEvent ev ready = .blocked s1) ∧
        ∀ c, (s.chans c).closed = false → (s1.chans c).closed = true →
          c ∈ s.clients ∧ c ∉ s1.clients) := by
  constructor
  · intro k
    have hsub : (joined (turns.take k)).Sublist (joined turns) :=
      (List.take_sublist k turns).filterMap _
    have hnd : (joined (turns.take k)).Nodup := hsub.nodup hjoin
    obtain ⟨s, hs, hwf, _, hclosed⟩ :=
      start_inv (turns.take k) manager [] ⟨List.nodup_nil, fun c hc => by cases hc⟩
        (fun c hc => by cases hc) (fun c hc => by cases hc) hnd
        (fun c _ hc => by cases hc)
    refine ⟨s, hs, hwf, ?_⟩
    intro c hc
    refine ⟨by simpa using hclosed c hc, ?_⟩
    intro hmem
    rw [hwf.2 c hmem] at hc
    cases hc
  · intro s ev ready hwf
    obtain ⟨s1, hrun, _, _, hflag⟩ := startEvent_total s ev ready hwf
    refine ⟨s1, hrun, ?_⟩
    intro c h0 h1
    rcases hflag c with h | h
    · rw [h, h0] at h1; cases h1
    · exact h

/-- Witness of C10: the sample run, after all six turns. -/
theorem members_open_along_runs_witness :
    (joined sampleTurns).Nodup ∧
    ∃ s, (manager.start (sampleTurns.take 6) = .done s ∨
        manager.start (sampleTurns.take 6) = .blocked s) ∧ s.WF := by
  have hnd : (joined sampleTurns).Nodup := by decide
  obtain ⟨s, hs, hwf, _⟩ := (members_open_along_runs sampleTurns hnd).1 6
  exact ⟨hnd, s, hs, hwf⟩

/-- C9. Two broadcasts in a row, whatever the order of each pass: from a
registry whose members are listed once with open queues both passes finish, and
every member that accepts both payloads is still a member and has received
`m1` and then `m2`, next to each other, after what it had received before.
The inbound loop submits the frames it reads in the order it reads them: what
the control loop has received of two frames is an initial part of the two
broadcasts in reading order, and both once it has received two sends. -/
theorem broadcast_order (s : ClientManager) (m1 m2 : Payload) (r1 r2 : ClientPtr → Bool)
    (o1 o2 : List ClientPtr) (hwf : s.WF) :
    (∃ s2, s.start [⟨.broadcast m1, r1, o1⟩, ⟨.broadcast m2, r2, o2⟩] = .done s2 ∧
      ∀ c ∈ s.clients, r1 c = true → r2 c = true →
        c ∈ s2.clients ∧
        s2.chans c = { closed := false, recvd := (s.chans c).recvd ++ [m1, m2] }) ∧
    (∀ (c : Client) (a b : String) (taken : Nat),
      (2 ≤ taken →
        (c.read [.frame a, .frame b] taken).1 =
          [.broadcast (jsonMarshal { Sender := c.id, Content := a }),
           .broadcast (jsonMarshal { Sender := c.id, Content := b })]) ∧
      (c.read [.frame a, .frame b] taken).1 =
        List.take taken
          [.broadcast (jsonMarshal { Sender := c.id, Content := a }),
           .broadcast (jsonMarshal { Sender := c.id, Content := b })]) := by
  refine ⟨?_, ?_⟩
  swap
  · intro c a b taken
    match taken with
    | 0 => exact ⟨fun h => absurd h (by decide), rfl⟩
    | 1 => exact ⟨fun h => absurd h (by decide), rfl⟩
    | n + 2 => exact ⟨fun _ => rfl, by simp [Client.read, readLoop]⟩
  have hwf0 := rangeOrder_WF s o1 hwf
  obtain ⟨s1, hrun1, hcl1, hrdy1, _, _⟩ :=
    broadcastLoop_spec m1 r1 (s.rangeOrder o1).clients (s.rangeOrder o1) hwf0.1 hwf0.2
  have hmem1 : ∀ c, c ∈ s1.clients ↔ c ∈ s.clients ∧ r1 c = true := by
    intro c
    rw [hcl1, List.mem_filter]
    have hiff := mem_rangeOrder s o1 c
    constructor
    · rintro ⟨h1, h2⟩
      refine ⟨hiff.mp h1, ?_⟩
      simpa [h1] using h2
    · rintro ⟨h1, h2⟩
      exact ⟨hiff.mpr h1, by simp [h2]⟩
  have hwf1 : s1.WF := by
    refine ⟨by rw [hcl1]; exact hwf0.1.filter _, ?_⟩
    intro c hc
    obtain ⟨h1, h2⟩ := (hmem1 c).mp hc
    rw [hrdy1 c ((mem_rangeOrder s o1 c).mpr h1) h2]
  have hwf2 := rangeOrder_WF s1 o2 hwf1
  obtain ⟨s2, hrun2, hcl2, hrdy2, _, _⟩ :=
    broadcastLoop_spec m2 r2 (s1.rangeOrder o2).clients (s1.rangeOrder o2) hwf2.1 hwf2.2
  refine ⟨s2, ?_, ?_⟩
  · have e1 : (s.rangeOrder o1).startEvent (.broadcast m1) r1 = .done s1 := hrun1
    have e2 : (s1.rangeOrder o2).startEvent (.broadcast m2) r2 = .done s2 := hrun2
    rw [start_cons_done s s1 ⟨.broadcast m1, r1, o1⟩ _ e1,
      start_cons_done s1 s2 ⟨.broadcast m2, r2, o2⟩ _ e2]
    rfl
  · intro c hc h1 h2
    have hc1 : c ∈ s1.clients := (hmem1 c).mpr ⟨hc, h1⟩
    have hc1o : c ∈ (s1.rangeOrder o2).clients := (mem_rangeOrder s1 o2 c).mpr hc1
    constructor
    · rw [hcl2, List.mem_filter]
      exact ⟨hc1o, by simp [h2]⟩
    · rw [hrdy2 c hc1o h2, rangeOrder_chans, hrdy1 c ((mem_rangeOrder s o1 c).mpr hc) h1,
        rangeOrder_chans]
      simp

/-- Witness of C9: clients 1 and 2, both ready for both broadcasts. -/
theorem broadcast_order_witness :
    (roomOf [1, 2]).WF ∧
    ∃ s2, (roomOf [1, 2]).start
        [⟨.broadcast "m1", fun _ => true, [2, 1]⟩, ⟨.broadcast "m2", fun _ => true, [1, 2]⟩] =
          .done s2 ∧
      s2.chans 1 = { closed := false, recvd := ["m1", "m2"] } ∧
      s2.chans 2 = { closed := false, recvd := ["m1", "m2"] } := by
  have hwf : (roomOf [1, 2]).WF := ⟨by decide, by decide⟩
  obtain ⟨s2, h1, h2⟩ :=
    (broadcast_order (roomOf [1, 2]) "m1" "m2" (fun _ => true) (fun _ => true) [2, 1] [1, 2]
      hwf).1
  refine ⟨hwf, s2, h1, ?_, ?_⟩
  · rw [(h2 1 (by decide) rfl rfl).2]; rfl
  · rw [(h2 2 (by decide) rfl rfl).2]; rfl

/-! ## The inbound loop -/

theorem exists_first_err : ∀ reads : List ReadResult, ReadResult.err ∈ reads →
    ∃ (frames : List String) (tail : List ReadResult),
      reads = frames.map ReadResult.frame ++ ReadResult.err :: tail := by
  intro reads
  induction reads with
  | nil => intro h; cases h
  | cons r rest ih =>
    intro h
    cases r with
    | err => exact ⟨[], rest, rfl⟩
    | frame message =>
      have hrest : ReadResult.err ∈ rest := by
        rcases List.mem_cons.mp h with h1 | h1
        · cases h1
        · exact h1
      obtain ⟨frames, tail, heq⟩ := ih hrest
      exact ⟨message :: frames, tail, by rw [heq]; rfl⟩

/-- The loop on frames followed by a failed read: with more sends received
than there are frames it submits them all and one unregister and leaves;
otherwise it is suspended after as many broadcasts as were received. -/
theorem readLoop_split (c : Client) (tail : List ReadResult) :
    ∀ (frames : List String) (taken : Nat),
      readLoop c (frames.map ReadResult.frame ++ ReadResult.err :: tail) taken =
        if frames.length < taken then
          (frames.map (fun f => Emit.broadcast (jsonMarshal { Sender := c.id, Content := f })) ++
            [.unregister c.ptr, .socketClose c.ptr], .broke, taken - frames.length - 1)
        else
          ((frames.map (fun f =>
            Emit.broadcast (jsonMarshal { Sender := c.id, Content := f }))).take taken,
            .inSend, 0) := by
  intro frames
  induction frames with
  | nil =>
    intro taken
    cases taken with
    | zero => rfl
    | succ n => simp [readLoop]
  | cons f rest ih =>
    intro taken
    cases taken with
    | zero => rfl
    | succ n =>
      have e : readLoop c ((f :: rest).map ReadResult.frame ++ ReadResult.err :: tail) (n + 1) =
          (Emit.broadcast (jsonMarshal { Sender := c.id, Content := f }) ::
            (readLoop c (rest.map ReadResult.frame ++ ReadResult.err :: tail) n).1,
            (readLoop c (rest.map ReadResult.frame ++ ReadResult.err :: tail) n).2) := rfl
      rw [e, ih n]
      by_cases hlt : rest.length < n
      · simp [hlt]
      · simp [hlt]

/-- The whole method on frames followed by a failed read, by the number of
sends the control loop receives. -/
theorem read_split (c : Client) (tail : List ReadResult) (frames : List String) (taken : Nat) :
    c.read (frames.map ReadResult.frame ++ ReadResult.err :: tail) taken =
      if frames.length + 2 ≤ taken then
        (frames.map (fun f => Emit.broadcast (jsonMarshal { Sender := c.id, Content := f })) ++
          [.unregister c.ptr, .socketClose c.ptr, .unregister c.ptr, .socketClose c.ptr],
          .returned)
      else if taken = frames.length + 1 then
        (frames.map (fun f => Emit.broadcast (jsonMarshal { Sender := c.id, Content := f })) ++
          [.unregister c.ptr, .socketClose c.ptr], .inSend)
      else
        ((frames.map (fun f =>
          Emit.broadcast (jsonMarshal { Sender := c.id, Content := f }))).take taken, .inSend) := by
  unfold Client.read
  rw [readLoop_split]
  by_cases h1 : frames.length + 2 ≤ taken
  · have h2 : frames.length < taken := by omega
    obtain ⟨k, hk⟩ : ∃ k, taken - frames.length - 1 = k + 1 := ⟨taken - frames.length - 2, by omega⟩
    simp [h1, h2, hk]
  · by_cases h3 : taken = frames.length + 1
    · have h2 : frames.length < taken := by omega
      have hk : taken - frames.length - 1 = 0 := by omega
      simp only [h1, h2, h3, hk, if_true, if_false]
      simp
    · have h2 : ¬ frames.length < taken := by omega
      simp [h1, h2, h3]

theorem unregisterCount_frames (c : Client) (p : ClientPtr) (frames : List String) (k : Nat) :
    unregisterCount p ((frames.map (fun f =>
      Emit.broadcast (jsonMarshal { Sender := c.id, Content := f }))).take k) = 0 := by
  unfold unregisterCount
  rw [List.count_eq_zero]
  intro hmem
  have := List.mem_of_mem_take hmem
  rw [List.mem_map] at this
  obtain ⟨_, _, h⟩ := this
  cases h

theorem unregisterCount_append (p : ClientPtr) (l1 l2 : List Emit) :
    unregisterCount p (l1 ++ l2) = unregisterCount p l1 + unregisterCount p l2 := by
  simp [unregisterCount, List.count_append]

/-- An unregister event leaves a registry without the connection, whether its
pass finishes or is suspended. -/
theorem unregister_removes (s s1 : ClientManager) (conn : ClientPtr) (ready : ClientPtr → Bool)
    (h : (s.startEvent (.unregister conn) ready).state? = some s1) : conn ∉ s1.clients := by
  by_cases hmem : conn ∈ s.clients
  · simp only [ClientManager.startEvent, hmem, if_true] at h
    cases hc : (s.chans conn).close with
    | none => rw [hc] at h; simp [Outcome.state?] at h
    | some ch =>
      rw [hc] at h
      have hcl := sendLoop_clients leaveNotice conn ready _ _ _ h
      rw [hcl, delete_clients, setChan_clients, List.mem_filter]
      rintro ⟨_, h2⟩
      simp at h2
  · rw [startEvent_unregister_not_mem s conn ready hmem] at h
    simp only [Outcome.state?, Option.some.injEq] at h
    rw [← h]
    exact hmem

/-- A connection that is not a member stays out under every event but its own
register event. -/
theorem not_mem_preserved (t t1 : ClientManager) (ev : Event) (r : ClientPtr → Bool)
    (c : ClientPtr) (hc : c ∉ t.clients) (hev : ev ≠ .register c)
    (h : (t.startEvent ev r).state? = some t1) : c ∉ t1.clients := by
  cases ev with
  | register conn =>
    have hcl : t1.clients = (t.insert conn).clients :=
      sendLoop_clients joinNotice conn r _ _ _ h
    rw [hcl, mem_insert_clients]
    rintro (h1 | h1)
    · exact hc h1
    · exact hev (by rw [h1])
  | unregister conn =>
    by_cases hmem : conn ∈ t.clients
    · simp only [ClientManager.startEvent, hmem, if_true] at h
      cases hcl : (t.chans conn).close with
      | none => rw [hcl] at h; simp [Outcome.state?] at h
      | some ch =>
        rw [hcl] at h
        have hcl1 := sendLoop_clients leaveNotice conn r _ _ _ h
        rw [hcl1, delete_clients, setChan_clients]
        exact fun h2 => hc (List.mem_filter.mp h2).1
    · rw [startEvent_unregister_not_mem t conn r hmem] at h
      simp only [Outcome.state?, Option.some.injEq] at h
      rw [← h]
      exact hc
  | broadcast message =>
    have hsub : t1.clients.Sublist t.clients :=
      broadcastLoop_sublist message r t.clients t t1 h
    exact fun h2 => hc (hsub.subset h2)

/-- C5 as amended. When a read fails, `Client.read` submits two unregister
events for its connection, the one of the error branch (line 100) and the one
of the deferred function (line 91), after the broadcasts of the frames read
before the failure.  Its sends block until the control loop receives them: when
the control loop receives them all the method returns with exactly the two
received; when it receives fewer the method stays suspended in a send with at
most one received; so a returned method has submitted two, and never more.
The control loop absorbs the second: after the first is processed the
connection is not a member, it stays out under every event but its own register
event, and the unregister of a non-member returns the state unchanged. -/
theorem read_failure_unregisters_twice (c : Client) (reads : List ReadResult)
    (h : ReadResult.err ∈ reads) :
    (∃ frames : List String, frames.length < reads.length ∧
      (∀ taken, frames.length + 2 ≤ taken →
        c.read reads taken =
          (frames.map (fun f => Emit.broadcast (jsonMarshal { Sender := c.id, Content := f })) ++
            [.unregister c.ptr, .socketClose c.ptr, .unregister c.ptr, .socketClose c.ptr],
            .returned)) ∧
      (∀ taken, taken < frames.length + 2 →
        (c.read reads taken).2 = .inSend ∧ unregisterCount c.ptr (c.read reads taken).1 ≤ 1)) ∧
    (∀ taken, reads.length + 1 ≤ taken → (c.read reads taken).2 = .returned) ∧
    (∀ taken, (c.read reads taken).2 = .returned →
      unregisterCount c.ptr (c.read reads taken).1 = 2) ∧
    (∀ taken, unregisterCount c.ptr (c.read reads taken).1 ≤ 2) ∧
    (∀ (s s1 : ClientManager) (ready : ClientPtr → Bool),
      (s.startEvent (.unregister c.ptr) ready).state? = some s1 → c.ptr ∉ s1.clients) ∧
    (∀ (t t1 : ClientManager) (ev : Event) (r : ClientPtr → Bool),
      c.ptr ∉ t.clients → ev ≠ .register c.ptr →
      (t.startEvent ev r).state? = some t1 → c.ptr ∉ t1.clients) ∧
    (∀ (t : ClientManager) (r : ClientPtr → Bool),
      c.ptr ∉ t.clients → t.startEvent (.unregister c.ptr) r = .done t) := by
  obtain ⟨frames, tail, heq⟩ := exists_first_err reads h
  have hlen : frames.length < reads.length := by
    rw [heq]
    simp
  have hfull : ∀ taken, frames.length + 2 ≤ taken →
      c.read reads taken =
        (frames.map (fun f => Emit.broadcast (jsonMarshal { Sender := c.id, Content := f })) ++
          [.unregister c.ptr, .socketClose c.ptr, .unregister c.ptr, .socketClose c.ptr],
          .returned) := by
    intro taken ht
    rw [heq, read_split, if_pos ht]
  have hcount_full : unregisterCount c.ptr
      (frames.map (fun f => Emit.broadcast (jsonMarshal { Sender := c.id, Content := f })) ++
        [.unregister c.ptr, .socketClose c.ptr, .unregister c.ptr, .socketClose c.ptr]) = 2 := by
    have h0 := unregisterCount_frames c c.ptr frames frames.length
    rw [List.take_of_length_le (by simp)] at h0
    rw [unregisterCount_append, h0]
    simp [unregisterCount]
  have hpart : ∀ taken, taken < frames.length + 2 →
      (c.read reads taken).2 = .inSend ∧ unregisterCount c.ptr (c.read reads taken).1 ≤ 1 := by
    intro taken ht
    rw [heq, read_split, if_neg (by omega)]
    by_cases h3 : taken = frames.length + 1
    · rw [if_pos h3]
      refine ⟨rfl, ?_⟩
      have h0 := unregisterCount_frames c c.ptr frames frames.length
      rw [List.take_of_length_le (by simp)] at h0
      simp only
      rw [unregisterCount_append, h0]
      simp [unregisterCount]
    · rw [if_neg h3]
      refine ⟨rfl, ?_⟩
      simp only
      rw [unregisterCount_frames]
      exact Nat.zero_le _
  refine ⟨⟨frames, hlen, hfull, hpart⟩, ?_, ?_, ?_, ?_, ?_, ?_⟩
  · intro taken ht
    rw [hfull taken (by omega)]
  · intro taken hret
    by_cases ht : frames.length + 2 ≤ taken
    · rw [hfull taken ht]
      exact hcount_full
    · have := (hpart taken (by omega)).1
      rw [this] at hret
      cases hret
  · intro taken
    by_cases ht : frames.length + 2 ≤ taken
    · rw [hfull taken ht]
      exact Nat.le_of_eq hcount_full
    · exact Nat.le_succ_of_le (hpart taken (by omega)).2
  · intro s s1 ready hs
    exact unregister_removes s s1 c.ptr ready hs
  · intro t t1 ev r hc hev ht
    exact not_mem_preserved t t1 ev r c.ptr hc hev ht
  · intro t r hc
    exact startEvent_unregister_not_mem t c.ptr r hc

/-- Witness of C5: one frame is read, then the read fails; the control loop
receives all three sends, or only two of them. -/
theorem read_failure_unregisters_twice_witness :
    ReadResult.err ∈ [ReadResult.frame "hi", ReadResult.err] ∧
    (Client.read ⟨7, "u7"⟩ [.frame "hi", .err] 3).2 = .returned ∧
    unregisterCount 7 (Client.read ⟨7, "u7"⟩ [.frame "hi", .err] 3).1 = 2 ∧
    unregisterCount 7 (Client.read ⟨7, "u7"⟩ [.frame "hi", .err] 2).1 ≤ 2 := by
  have hmem : ReadResult.err ∈ [ReadResult.frame "hi", ReadResult.err] := by decide
  obtain ⟨_, h1, h2, h3, _⟩ :=
    read_failure_unregisters_twice ⟨7, "u7"⟩ [.frame "hi", .err] hmem
  exact ⟨hmem, h1 3 (by decide), h2 3 (h1 3 (by decide)), h3 2⟩

/-- C5 as stated fails: the transport of connection 7 fails on the first read,
the control loop receives both sends, `Client.read` returns, and it has
submitted two unregister events, not one. -/
theorem read_failure_not_one_unregister :
    (Client.read ⟨7, "u7"⟩ [.err] 2).2 = .returned ∧
    (Client.read ⟨7, "u7"⟩ [.err] 2).1 =
      [.unregister 7, .socketClose 7, .unregister 7, .socketClose 7] ∧
    ¬ unregisterCount 7 (Client.read ⟨7, "u7"⟩ [.err] 2).1 = 1 := by
  decide

/-! ## The encoding -/

/-- C6 as amended. The notices the coordinator builds are the encodings of the
`Message` with sender and recipient empty and content exactly
"/A new socket has connected." for a register event and
"/A socket has disconnected." for an unregister event; their only member is
the content; and these are the payloads the two cases hand to `send`. -/
theorem notices_content :
    joinNotice =
      jsonMarshal { Sender := "", Recipient := "", Content := "/A new socket has connected." } ∧
    leaveNotice =
      jsonMarshal { Sender := "", Recipient := "", Content := "/A socket has disconnected." } ∧
    joinNotice = "\x7b\"content\":\"/A new socket has connected.\"\x7d" ∧
    leaveNotice = "\x7b\"content\":\"/A socket has disconnected.\"\x7d" ∧
    (∀ (s : ClientManager) (conn : ClientPtr) (ready : ClientPtr → Bool),
      s.startEvent (.register conn) ready = (s.insert conn).send joinNotice conn ready) ∧
    (∀ (s : ClientManager) (conn : ClientPtr) (ready : ClientPtr → Bool) (ch : Chan),
      conn ∈ s.clients → (s.chans conn).close = some ch →
      s.startEvent (.unregister conn) ready =
        ((s.setChan conn ch).delete conn).send leaveNotice conn ready) := by
  refine ⟨rfl, rfl, by decide, by decide, fun _ _ _ => rfl, ?_⟩
  intro s conn ready ch hmem hch
  simp [ClientManager.startEvent, hmem, hch]

/-- C6 as stated fails: the join notice is not the encoding of the envelope
with sender and recipient empty whose content is "a new connection has joined". -/
theorem notices_not_spec_text :
    joinNotice ≠
      jsonMarshal { Sender := "", Recipient := "", Content := "a new connection has joined" } ∧
    Message.members { Sender := "", Recipient := "", Content := "/A new socket has connected." } ≠
      [("content", "a new connection has joined")] := by
  decide

/-! ## Reading back what `json.Marshal` wrote -/

theorem readString_backslash_u (a b d f : Char) (tail : List Char) :
    readString (Char.ofNat 92 :: Char.ofNat 117 :: a :: b :: d :: f :: tail) =
      pushChar (hex4 a b d f) (readString tail) := by
  have h1 : (Char.ofNat 92).toNat = 92 := by decide
  have h2 : (Char.ofNat 117).toNat = 117 := by decide
  simp [readString, h1, h2]

theorem readString_backslash (e : Char) (tail : List Char) (h : e.toNat ≠ 117) :
    readString (Char.ofNat 92 :: e :: tail) = pushChar (unescapeShort e) (readString tail) := by
  have h1 : (Char.ofNat 92).toNat = 92 := by decide
  rw [readString.eq_def]
  simp only [h1, h, if_false, if_true]
  simp

theorem readString_plain (c : Char) (tail : List Char) (h1 : c.toNat ≠ 34) (h2 : c.toNat ≠ 92)
    (h3 : ¬ c.toNat < 32) :
    readString (c :: tail) = pushChar (some c) (readString tail) := by
  rw [readString.eq_def]
  simp only [h1, h2, h3, if_false]

theorem hexVal_hexDigit : ∀ k, k < 16 → hexVal (hexDigit k) = some k := by
  decide

/-- What `escapeChar` writes for a character reads back as that character. -/
theorem readString_escapeChar (c : Char) (tail : List Char) :
    readString (escapeChar c ++ tail) = pushChar (some c) (readString tail) := by
  have hc : Char.ofNat c.toNat = c := Char.ofNat_toNat c
  unfold escapeChar
  simp only []
  split
  · rename_i h
    rw [List.cons_append, List.cons_append, List.nil_append,
      readString_backslash c tail (by omega)]
    have : unescapeShort c = some c := by
      unfold unescapeShort
      simp only []
      rw [if_pos (by omega)]
    rw [this]
  · split
    · rename_i h
      rw [← hc, h]
      exact readString_backslash _ tail (by decide)
    · split
      · rename_i h
        rw [← hc, h]
        exact readString_backslash _ tail (by decide)
      · split
        · rename_i h
          rw [← hc, h]
          exact readString_backslash _ tail (by decide)
        · split
          · rename_i h
            rw [← hc, h]
            exact readString_backslash _ tail (by decide)
          · split
            · rename_i h
              rw [← hc, h]
              exact readString_backslash _ tail (by decide)
            · split
              · rename_i h
                simp only [List.cons_append, List.nil_append]
                rw [readString_backslash_u]
                have h0 : hexVal (Char.ofNat 48) = some 0 := by decide
                have e1 := hexVal_hexDigit (c.toNat / 16) (by omega)
                have e2 := hexVal_hexDigit (c.toNat % 16) (by omega)
                have : hex4 (Char.ofNat 48) (Char.ofNat 48) (hexDigit (c.toNat / 16))
                    (hexDigit (c.toNat % 16)) = some c := by
                  simp only [hex4, h0, e1, e2]
                  have : ((0 * 16 + 0) * 16 + c.toNat / 16) * 16 + c.toNat % 16 = c.toNat := by
                    omega
                  rw [this, hc]
                rw [this]
              · split
                · rename_i h
                  simp only [List.cons_append, List.nil_append]
                  rw [readString_backslash_u]
                  have h0 : hexVal (Char.ofNat 48) = some 0 := by decide
                  have h2 : hexVal (Char.ofNat 50) = some 2 := by decide
                  have e2 := hexVal_hexDigit (c.toNat % 16) (by omega)
                  have : hex4 (Char.ofNat 50) (Char.ofNat 48) (Char.ofNat 50)
                      (hexDigit (c.toNat % 16)) = some c := by
                    simp only [hex4, h0, h2, e2]
                    have : ((2 * 16 + 0) * 16 + 2) * 16 + c.toNat % 16 = c.toNat := by
                      omega
                    rw [this, hc]
                  rw [this]
                · simp only [List.cons_append, List.nil_append]
                  exact readString_plain c tail (by omega) (by omega) (by omega)

/-- The body of a quoted string reads back as the string. -/
theorem readString_quoted (s : List Char) (tail : List Char) :
    readString ((s.map escapeChar).flatten ++ Char.ofNat 34 :: tail) = some (s, tail) := by
  induction s with
  | nil =>
    have h1 : (Char.ofNat 34).toNat = 34 := by decide
    rw [List.map_nil, List.flatten_nil, List.nil_append, readString.eq_def]
    simp only [h1, if_true]
  | cons c rest ih =>
    rw [List.map_cons, List.flatten_cons, List.append_assoc, readString_escapeChar, ih]
    rfl

theorem readMember_render (kv : String × String) (tail : List Char) :
    readMember (renderMember kv ++ tail) = some (kv, tail) := by
  have h34 : (Char.ofNat 34).toNat = 34 := by decide
  have h58 : (Char.ofNat 58).toNat = 58 := by decide
  have hshape : renderMember kv ++ tail =
      Char.ofNat 34 :: ((kv.1.data.map escapeChar).flatten ++ Char.ofNat 34 ::
        Char.ofNat 58 :: Char.ofNat 34 ::
          ((kv.2.data.map escapeChar).flatten ++ Char.ofNat 34 :: tail)) := by
    simp [renderMember, quoteJSON, List.append_assoc]
  rw [hshape, readMember]
  simp only [h34, if_true, readString_quoted, h58, and_self]

theorem readMembers_render : ∀ (kvs : List (String × String)) (fuel : Nat),
    kvs ≠ [] → kvs.length ≤ fuel →
    readMembers fuel (renderMembers kvs ++ [Char.ofNat 125]) = some kvs := by
  intro kvs
  induction kvs with
  | nil => intro _ h; exact absurd rfl h
  | cons kv rest ih =>
    intro fuel _ hlen
    have h125 : (Char.ofNat 125).toNat = 125 := by decide
    have h44 : (Char.ofNat 44).toNat = 44 := by decide
    cases fuel with
    | zero => simp at hlen
    | succ fuel =>
      cases rest with
      | nil =>
        rw [renderMembers, readMembers, readMember_render]
        simp only [h125, if_true]
      | cons kv2 rest2 =>
        have hrest : readMembers fuel (renderMembers (kv2 :: rest2) ++ [Char.ofNat 125]) =
            some (kv2 :: rest2) :=
          ih fuel (by simp) (by simpa using hlen)
        rw [renderMembers, readMembers, List.append_assoc, readMember_render]
        · simp only [List.cons_append, h44, hrest]
          simp
        · simp

theorem length_le_renderMembers : ∀ kvs : List (String × String),
    kvs.length ≤ (renderMembers kvs).length := by
  intro kvs
  induction kvs with
  | nil => simp
  | cons kv rest ih =>
    cases rest with
    | nil => simp [renderMembers, renderMember, quoteJSON]
    | cons kv2 rest2 =>
      rw [renderMembers]
      · simp only [List.length_append, List.length_cons] at ih ⊢
        omega
      · simp

theorem decodeRecord_render (kvs : List (String × String)) :
    decodeRecord (String.mk (Char.ofNat 123 :: (renderMembers kvs ++ [Char.ofNat 125]))) =
      some kvs := by
  have h123 : (Char.ofNat 123).toNat = 123 := by decide
  cases kvs with
  | nil => simp [decodeRecord, renderMembers, h123]
  | cons kv rest =>
    have hne : renderMembers (kv :: rest) ++ [Char.ofNat 125] ≠ [Char.ofNat 125] := by
      have : ∃ t, renderMembers (kv :: rest) = Char.ofNat 34 :: t := by
        cases rest with
        | nil => exact ⟨_, rfl⟩
        | cons kv2 rest2 => exact ⟨_, rfl⟩
      obtain ⟨t, ht⟩ := this
      rw [ht]
      intro h
      have := (List.cons.inj h).1
      revert this
      decide
    simp only [decodeRecord, h123, if_true, hne, if_false]
    apply readMembers_render _ _ (by simp)
    have := length_le_renderMembers (kv :: rest)
    simp only [List.length_append] at this ⊢
    omega

/-- Reading back the payload `json.Marshal` writes for a message gives the
members of the message. -/
theorem decodeRecord_jsonMarshal (m : Message) :
    decodeRecord (jsonMarshal m) = some m.members :=
  decodeRecord_render m.members

/-- C7. The payload `json.Marshal` writes for a `Message` is a record; read
back, it has the key "sender" exactly when the sender is not empty, "recipient"
exactly when the recipient is not empty, "content" exactly when the content is
not empty; a non-empty field is there under its key with its value, and every
member is one of these, so none has an empty value.  The message with only
the content "hi" is written as the record whose single member is the content
"hi"; a record written with an empty sender would show the key when read. -/
theorem marshal_omits_empty_fields (m : Message) :
    (∃ rec, decodeRecord (jsonMarshal m) = some rec ∧
      ("sender" ∈ rec.map Prod.fst ↔ m.Sender ≠ "") ∧
      ("recipient" ∈ rec.map Prod.fst ↔ m.Recipient ≠ "") ∧
      ("content" ∈ rec.map Prod.fst ↔ m.Content ≠ "") ∧
      (m.Sender ≠ "" → ("sender", m.Sender) ∈ rec) ∧
      (m.Recipient ≠ "" → ("recipient", m.Recipient) ∈ rec) ∧
      (m.Content ≠ "" → ("content", m.Content) ∈ rec) ∧
      (∀ kv ∈ rec, kv.2 ≠ "" ∧
        (kv = ("sender", m.Sender) ∨ kv = ("recipient", m.Recipient) ∨
          kv = ("content", m.Content)))) ∧
    jsonMarshal { Sender := "", Recipient := "", Content := "hi" } =
      "\x7b\"content\":\"hi\"\x7d" ∧
    decodeRecord "\x7b\"content\":\"hi\"\x7d" = some [("content", "hi")] ∧
    decodeRecord "\x7b\"sender\":\"\",\"content\":\"hi\"\x7d" =
      some [("sender", ""), ("content", "hi")] := by
  refine ⟨⟨m.members, decodeRecord_jsonMarshal m, ?_⟩, by decide, by decide, by decide⟩
  by_cases h1 : m.Sender = "" <;> by_cases h2 : m.Recipient = "" <;>
    by_cases h3 : m.Content = "" <;> simp [Message.members, h1, h2, h3]

end ChatApp
